import Mathlib

/-!
Verification of the cache-optimized data structures repository: a pool
allocator (fixed-capacity buffers carved by an advancing offset), two
chunked-vector containers built on plain allocation and on the pool
allocator, the benchmark drivers, and the AoS/SoA particle layouts.

The C++ classes are embedded shallowly: raw buffers become total
functions from cell indices to values, a carve pointer becomes a pair
(buffer index, offset), and every operation is a pure state transformer
translated line by line from the source.
-/

namespace CacheBench

/-! # Definitions

## Pool allocator

Embeds the C++ class `PoolAllocator<T>`:

    std::vector<T*> buffers;  size_t capacity;  size_t offset;
    PoolAllocator(size_t cap) : capacity(cap), offset(0) \x7b
        buffers.push_back(new T[cap]); \x7d
    T* allocate(size_t n) \x7b
        if (offset + n > capacity) \x7b
            buffers.push_back(new T[capacity]); offset = 0; \x7d
        T* ptr = buffers.back() + offset;  offset += n;  return ptr; \x7d

A buffer is a total function from cell index to stored value (cells are
default-initialized in the model; the C++ cells are uninitialized and
never read before being written in any verified property).  A returned
carve pointer is the pair (index of the buffer it points into, offset of
its first cell in that buffer).
-/

structure PoolState (T : Type) where
  buffers : List (Nat → T)
  capacity : Nat
  offset : Nat

def PoolState.init (T : Type) [Inhabited T] (cap : Nat) : PoolState T :=
  { buffers := [fun _ => default], capacity := cap, offset := 0 }

def PoolState.allocate {T : Type} [Inhabited T] (s : PoolState T) (n : Nat) :
    (Nat × Nat) × PoolState T :=
  if s.capacity < s.offset + n then
    let buffers := s.buffers ++ [fun _ => default]
    ((buffers.length - 1, 0),
     { s with buffers := buffers, offset := 0 + n })
  else
    ((s.buffers.length - 1, s.offset), { s with offset := s.offset + n })

/-- Value of buffer b, cell c, as read through the model. -/
def PoolState.readCell {T : Type} [Inhabited T] (s : PoolState T)
    (b c : Nat) : T :=
  (s.buffers.getD b (fun _ => default)) c

/-! ## Allocation traces

A trace records, next to the allocator state, the carve returned by each
allocate call as a triple (buffer index, start offset, length).  This is
the history a caller accumulates by calling allocate in a loop.
-/

structure AllocTrace (T : Type) where
  carves : List (Nat × Nat × Nat)
  state : PoolState T

def AllocTrace.init (T : Type) [Inhabited T] (cap : Nat) : AllocTrace T :=
  { carves := [], state := PoolState.init T cap }

def AllocTrace.step {T : Type} [Inhabited T] (t : AllocTrace T) (n : Nat) :
    AllocTrace T :=
  let r := t.state.allocate n
  { carves := t.carves ++ [(r.1.1, r.1.2, n)], state := r.2 }

/-- Runs a whole sequence of allocate calls from a fresh allocator. -/
def allocRun (T : Type) [Inhabited T] (cap : Nat) (ns : List Nat) :
    AllocTrace T :=
  ns.foldl AllocTrace.step (AllocTrace.init T cap)

/-- Two carves are disjoint when they sit in different buffers or their
half-open cell ranges inside the common buffer do not intersect. -/
def carvesDisjoint (c d : Nat × Nat × Nat) : Prop :=
  c.1 ≠ d.1 ∨ c.2.1 + c.2.2 ≤ d.2.1 ∨ d.2.1 + d.2.2 ≤ c.2.1

instance : DecidableRel carvesDisjoint := fun _ _ => by
  unfold carvesDisjoint
  infer_instance

/-- Invariant of allocator runs, maintained by every allocate call whose
request size is at most the capacity.  It records: the capacity never
changes, at least the constructor's buffer exists, the offset never
exceeds the capacity, every issued carve points into an existing buffer,
carves in the most recent buffer end at or before the current offset,
carves are issued in increasing (buffer, offset) order without overlap,
and the total carved length is bounded by the storage consumed so far. -/
structure TraceInv {T : Type} (cap : Nat) (t : AllocTrace T) : Prop where
  cap_eq : t.state.capacity = cap
  bpos : 0 < t.state.buffers.length
  off_le : t.state.offset ≤ cap
  inb : ∀ c ∈ t.carves, c.1 < t.state.buffers.length
  frontier : ∀ c ∈ t.carves,
    c.1 + 1 = t.state.buffers.length → c.2.1 + c.2.2 ≤ t.state.offset
  ordered : t.carves.Pairwise
    (fun c d => c.1 < d.1 ∨ (c.1 = d.1 ∧ c.2.1 + c.2.2 ≤ d.2.1))
  sum_le : (t.carves.map (fun c => c.2.2)).sum ≤
    cap * (t.state.buffers.length - 1) + t.state.offset

/-! ## Chunked vector with plain new[]

Embeds the C++ class `ChunkedVector<T, CHUNK_SIZE>`:

    std::vector<T*> chunks;  size_t size = 0;
    void push_back(const T& value) \x7b
        if (size % CHUNK_SIZE == 0) chunks.push_back(new T[CHUNK_SIZE]);
        chunks[size / CHUNK_SIZE][size % CHUNK_SIZE] = value;  size++; \x7d
    T& operator[](size_t index) \x7b
        return chunks[index / CHUNK_SIZE][index % CHUNK_SIZE]; \x7d
    size_t get_size() const \x7b return size; \x7d

A chunk is a total function from slot index to value.  Writing one slot
of one chunk is the helper writeCell, shared with the pool-backed model.
-/

/-- Stores value into cell number cell of list entry b, leaving every
other cell of every entry unchanged: the model of a single element
assignment through a pointer into entry b. -/
def writeCell {T : Type} [Inhabited T] (bufs : List (Nat → T)) (b cell : Nat)
    (value : T) : List (Nat → T) :=
  bufs.set b
    (fun j => if j = cell then value else (bufs.getD b (fun _ => default)) j)

structure ChunkedVector (T : Type) where
  chunks : List (Nat → T)
  size : Nat

def ChunkedVector.empty (T : Type) : ChunkedVector T :=
  { chunks := [], size := 0 }

def ChunkedVector.push_back {T : Type} [Inhabited T] (CS : Nat)
    (v : ChunkedVector T) (value : T) : ChunkedVector T :=
  let chunks :=
    if v.size % CS = 0 then v.chunks ++ [fun _ => default] else v.chunks
  { chunks := writeCell chunks (v.size / CS) (v.size % CS) value,
    size := v.size + 1 }

/-- The C++ operator[]: chunks[index / CHUNK_SIZE][index % CHUNK_SIZE]. -/
def ChunkedVector.get {T : Type} [Inhabited T] (CS : Nat)
    (v : ChunkedVector T) (index : Nat) : T :=
  (v.chunks.getD (index / CS) (fun _ => default)) (index % CS)

def ChunkedVector.get_size {T : Type} (v : ChunkedVector T) : Nat := v.size

/-- N sequential push_back calls, the workload of the benchmark driver. -/
def ChunkedVector.fromList {T : Type} [Inhabited T] (CS : Nat)
    (xs : List T) : ChunkedVector T :=
  xs.foldl (ChunkedVector.push_back CS) (ChunkedVector.empty T)

/-- Abstraction relation: the chunked vector v stores exactly the list
ys — matching size, ceil(size / CS) chunks, and element reads. -/
def PlainRepr {T : Type} [Inhabited T] (CS : Nat) (v : ChunkedVector T)
    (ys : List T) : Prop :=
  v.size = ys.length ∧
  v.chunks.length = (ys.length + CS - 1) / CS ∧
  ∀ i, i < ys.length → v.get CS i = ys.getD i default

/-! ## Chunked vector on the pool allocator

Embeds the C++ class `ChunkedVectorPoolAllocation<T, CHUNK_SIZE>`:

    std::vector<T*> chunks;  size_t size = 0;
    PoolAllocator<T> allocator\x7b 2048 \x7d;
    void push_back(const T& value) \x7b
        if (size % CHUNK_SIZE == 0)
            chunks.push_back(allocator.allocate(CHUNK_SIZE));
        chunks[size / CHUNK_SIZE][size % CHUNK_SIZE] = value;  size++; \x7d

Each chunk entry is here a carve pointer (buffer index, base offset)
into the embedded allocator; indexing adds the slot to the base offset.
-/

/-- Default value of the template parameter CHUNK_SIZE in the source. -/
def defaultChunkSize : Nat := 64

structure ChunkedVectorPoolAllocation (T : Type) where
  chunks : List (Nat × Nat)
  size : Nat
  allocator : PoolState T

def ChunkedVectorPoolAllocation.empty (T : Type) [Inhabited T] :
    ChunkedVectorPoolAllocation T :=
  { chunks := [], size := 0, allocator := PoolState.init T 2048 }

def ChunkedVectorPoolAllocation.push_back {T : Type} [Inhabited T] (CS : Nat)
    (v : ChunkedVectorPoolAllocation T) (value : T) :
    ChunkedVectorPoolAllocation T :=
  let r :=
    if v.size % CS = 0 then
      let a := v.allocator.allocate CS
      (v.chunks ++ [a.1], a.2)
    else (v.chunks, v.allocator)
  let p := r.1.getD (v.size / CS) (0, 0)
  { chunks := r.1, size := v.size + 1,
    allocator :=
      { r.2 with
        buffers := writeCell r.2.buffers p.1 (p.2 + v.size % CS) value } }

/-- The C++ operator[] of the pooled variant: the chunk pointer is a
carve base inside a pool buffer, the slot is added to the base offset. -/
def ChunkedVectorPoolAllocation.get {T : Type} [Inhabited T] (CS : Nat)
    (v : ChunkedVectorPoolAllocation T) (index : Nat) : T :=
  (v.allocator.buffers.getD (v.chunks.getD (index / CS) (0, 0)).1
    (fun _ => default))
    ((v.chunks.getD (index / CS) (0, 0)).2 + index % CS)

def ChunkedVectorPoolAllocation.get_size {T : Type}
    (v : ChunkedVectorPoolAllocation T) : Nat := v.size

def ChunkedVectorPoolAllocation.fromList {T : Type} [Inhabited T] (CS : Nat)
    (xs : List T) : ChunkedVectorPoolAllocation T :=
  xs.foldl (ChunkedVectorPoolAllocation.push_back CS)
    (ChunkedVectorPoolAllocation.empty T)

/-- Abstraction relation for the pool-backed chunked vector: matching
size and chunk count, the embedded allocator is in a sound reachable
state (capacity 2048, offset within capacity), every chunk carve lies
within a live buffer and within the capacity, carves in the newest
buffer end at or before the allocator offset, carves are ordered and
non-overlapping, and element reads return the stored list. -/
def PoolRepr {T : Type} [Inhabited T] (CS : Nat)
    (v : ChunkedVectorPoolAllocation T) (ys : List T) : Prop :=
  v.size = ys.length ∧
  v.allocator.capacity = 2048 ∧
  0 < v.allocator.buffers.length ∧
  v.allocator.offset ≤ 2048 ∧
  v.chunks.length = (ys.length + CS - 1) / CS ∧
  (∀ j, j < v.chunks.length →
    (v.chunks.getD j (0, 0)).1 < v.allocator.buffers.length ∧
    (v.chunks.getD j (0, 0)).2 + CS ≤ 2048) ∧
  (∀ j, j < v.chunks.length →
    (v.chunks.getD j (0, 0)).1 + 1 = v.allocator.buffers.length →
    (v.chunks.getD j (0, 0)).2 + CS ≤ v.allocator.offset) ∧
  (∀ j k, j < k → k < v.chunks.length →
    (v.chunks.getD j (0, 0)).1 < (v.chunks.getD k (0, 0)).1 ∨
    ((v.chunks.getD j (0, 0)).1 = (v.chunks.getD k (0, 0)).1 ∧
     (v.chunks.getD j (0, 0)).2 + CS ≤ (v.chunks.getD k (0, 0)).2)) ∧
  (∀ i, i < ys.length → v.get CS i = ys.getD i default)

/-! ## The scan loop of benchmarkStdVector

Embeds source lines 115-119 of vector-allocation-benchmarks.cpp:

    std::vector<int> v;  v.reserve(n);
    for (size_t k = 0; k < n; k++) v.push_back(k);
    volatile long long sum = 0;
    for (size_t k = 0; k < v.size(); i++) sum += v[i];

The fill loop stores k at position k, so v[j] = j for j < n.  The scan
loop's increment mutates the enclosing repeat counter i instead of k
(exactly as written in the source), so one iteration adds v[i] to sum
and advances i while k stays fixed.  Reads v[i] past the end are
undefined behavior in C++; the model returns 0 there, which does not
affect the loop-control facts proved below. -/

structure ScanState where
  i : Nat
  k : Nat
  sum : Int

def stdVectorElem (n j : Nat) : Int := if j < n then (j : Int) else 0

def scanStep (n : Nat) (s : ScanState) : ScanState :=
  if s.k < n then
    { i := s.i + 1, k := s.k, sum := s.sum + stdVectorElem n s.i }
  else s

/-- State of the scan loop after t iteration attempts, entered from the
first outer repeat iteration (i = 0) with k = 0 and sum = 0. -/
def scanIter (n : Nat) : Nat → ScanState
  | 0 => { i := 0, k := 0, sum := 0 }
  | t + 1 => scanStep n (scanIter n t)

/-! ## AoS vs SoA particle layouts

Embeds aos_vs_soa.cpp.  The pseudo-random generator with its fixed seed
is abstracted as the stream dist of successive draws: both benchmark
initializers consume draws in the same textual order (x, y, z, mass per
particle), so particle i consumes draws 4i, 4i+1, 4i+2, 4i+3.  Draw
values are kept abstract in the type R; the float-to-double widening of
the AoS mass store is exact, so it preserves the drawn value. -/

inductive Precision where
  | single
  | double
deriving DecidableEq

/-- Field precisions of struct ParticleAos: float x, y, z; double mass. -/
def particleAosPrecisions : List Precision :=
  [Precision.single, Precision.single, Precision.single, Precision.double]

/-- Field precisions of struct ParticlesSoA: a std::vector of float for
each of x, y, z and mass. -/
def particlesSoAPrecisions : List Precision :=
  [Precision.single, Precision.single, Precision.single, Precision.single]

structure ParticleAos (R : Type) where
  x : R
  y : R
  z : R
  mass : R

instance {R : Type} [Inhabited R] : Inhabited (ParticleAos R) :=
  ⟨⟨default, default, default, default⟩⟩

/-- The AoS fill loop: particles.push_back(\x7b dist(rng), dist(rng),
dist(rng), dist(rng) \x7d) repeated n times; c is the number of draws
already consumed. -/
def aosFill {R : Type} (dist : Nat → R) : Nat → Nat → List (ParticleAos R)
  | 0, _ => []
  | n + 1, c =>
      { x := dist c, y := dist (c + 1), z := dist (c + 2),
        mass := dist (c + 3) } :: aosFill dist n (c + 4)

def benchmarkAoS_particles {R : Type} (dist : Nat → R) (n : Nat) :
    List (ParticleAos R) :=
  aosFill dist n 0

structure ParticlesSoA (R : Type) where
  x : Nat → R
  y : Nat → R
  z : Nat → R
  mass : Nat → R

/-- Pointwise update of one field array. -/
def updFun {R : Type} (f : Nat → R) (i : Nat) (value : R) : Nat → R :=
  fun j => if j = i then value else f j

/-- The ParticlesSoA constructor: resize gives value-initialized arrays. -/
def ParticlesSoA.ctor (R : Type) [Inhabited R] : ParticlesSoA R :=
  { x := fun _ => default, y := fun _ => default,
    z := fun _ => default, mass := fun _ => default }

/-- The SoA fill loop: x[i], y[i], z[i], mass[i] each take one draw, in
that order; m counts remaining iterations, i the current index, c the
number of draws already consumed. -/
def soaFill {R : Type} (dist : Nat → R) :
    Nat → Nat → Nat → ParticlesSoA R → ParticlesSoA R
  | 0, _, _, s => s
  | m + 1, i, c, s =>
      soaFill dist m (i + 1) (c + 4)
        { x := updFun s.x i (dist c),
          y := updFun s.y i (dist (c + 1)),
          z := updFun s.z i (dist (c + 2)),
          mass := updFun s.mass i (dist (c + 3)) }

def benchmarkSoA_particles {R : Type} [Inhabited R] (dist : Nat → R)
    (n : Nat) : ParticlesSoA R :=
  soaFill dist n 0 0 (ParticlesSoA.ctor R)

/-! # Theorems

## List helper lemmas (getD over append and set) -/

theorem getD_append_lt {α : Type} :
    ∀ (l m : List α) (i : Nat) (d : α), i < l.length →
      (l ++ m).getD i d = l.getD i d
  | [], _, i, _, h => absurd h (Nat.not_lt_zero i)
  | _ :: _, _, 0, _, _ => rfl
  | _ :: l, m, i + 1, d, h =>
      getD_append_lt l m i d (Nat.lt_of_succ_lt_succ h)

theorem getD_append_len {α : Type} :
    ∀ (l : List α) (a d : α), (l ++ [a]).getD l.length d = a
  | [], _, _ => rfl
  | _ :: l, a, d => getD_append_len l a d

theorem getD_set_self {α : Type} :
    ∀ (l : List α) (i : Nat) (a d : α), i < l.length →
      (l.set i a).getD i d = a
  | [], i, _, _, h => absurd h (Nat.not_lt_zero i)
  | _ :: _, 0, _, _, _ => rfl
  | _ :: l, i + 1, a, d, h =>
      getD_set_self l i a d (Nat.lt_of_succ_lt_succ h)

theorem getD_set_ne {α : Type} :
    ∀ (l : List α) (i j : Nat) (a d : α), i ≠ j →
      (l.set i a).getD j d = l.getD j d
  | [], _, _, _, _, _ => rfl
  | _ :: _, 0, 0, _, _, h => absurd rfl h
  | _ :: _, 0, _ + 1, _, _, _ => rfl
  | _ :: _, _ + 1, 0, _, _, _ => rfl
  | _ :: l, i + 1, j + 1, a, d, h =>
      getD_set_ne l i j a d (fun hij => h (congrArg Nat.succ hij))

theorem set_oob {α : Type} :
    ∀ (l : List α) (i : Nat) (a : α), l.length ≤ i → l.set i a = l
  | [], _, _, _ => rfl
  | _ :: _, 0, _, h => absurd h (by simp)
  | x :: l, i + 1, a, h =>
      congrArg (List.cons x) (set_oob l i a (by simpa using h))

/-! ## writeCell lemmas -/

theorem writeCell_length {T : Type} [Inhabited T] (bufs : List (Nat → T))
    (b cell : Nat) (value : T) :
    (writeCell bufs b cell value).length = bufs.length := by
  unfold writeCell
  exact List.length_set bufs b _

theorem writeCell_read_self {T : Type} [Inhabited T] (bufs : List (Nat → T))
    (b cell : Nat) (value : T) (hb : b < bufs.length) :
    (writeCell bufs b cell value).getD b (fun _ => default) cell = value := by
  unfold writeCell
  rw [getD_set_self _ _ _ _ hb]
  simp

theorem writeCell_read_ne {T : Type} [Inhabited T] (bufs : List (Nat → T))
    (b cell : Nat) (value : T) (b2 c2 : Nat) (hne : b2 ≠ b ∨ c2 ≠ cell) :
    (writeCell bufs b cell value).getD b2 (fun _ => default) c2 =
      bufs.getD b2 (fun _ => default) c2 := by
  unfold writeCell
  by_cases hb : b2 = b
  · subst hb
    rcases hne with h | h
    · exact absurd rfl h
    · by_cases hlt : b2 < bufs.length
      · rw [getD_set_self _ _ _ _ hlt]
        simp [h]
      · rw [set_oob _ _ _ (by omega)]
  · rw [getD_set_ne _ _ _ _ _ (fun hh => hb hh.symm)]

/-! ## Ceiling-division arithmetic -/

theorem ceilDiv_of_mod_eq_zero (CS s : Nat) (h : 0 < CS) (hd : s % CS = 0) :
    (s + CS - 1) / CS = s / CS := by
  obtain ⟨q, hq⟩ := Nat.dvd_of_mod_eq_zero hd
  subst hq
  have h1 : CS * q + CS - 1 = (CS - 1) + CS * q := by omega
  rw [h1, Nat.add_mul_div_left _ _ h, Nat.div_eq_of_lt (by omega),
    Nat.mul_div_cancel_left _ h, Nat.zero_add]

theorem ceilDiv_of_mod_ne_zero (CS s : Nat) (h : 0 < CS) (hd : s % CS ≠ 0) :
    (s + CS - 1) / CS = s / CS + 1 := by
  have hmod : s % CS < CS := Nat.mod_lt s h
  have hdm := Nat.div_add_mod s CS
  have h2 : CS * (s / CS + 1) = CS * (s / CS) + CS := Nat.mul_succ CS (s / CS)
  have h1 : s + CS - 1 = (s % CS - 1) + CS * (s / CS + 1) := by omega
  rw [h1, Nat.add_mul_div_left _ _ h, Nat.div_eq_of_lt (by omega)]
  omega

theorem ceilDiv_succ (CS s : Nat) (h : 0 < CS) :
    (s + 1 + CS - 1) / CS = s / CS + 1 := by
  have h1 : s + 1 + CS - 1 = s + CS := by omega
  rw [h1, Nat.add_div_right s h]

theorem div_lt_ceilDiv (CS s i : Nat) (h : 0 < CS) (hi : i < s) :
    i / CS < (s + CS - 1) / CS := by
  rw [Nat.div_lt_iff_lt_mul h]
  by_cases hd : s % CS = 0
  · rw [ceilDiv_of_mod_eq_zero CS s h hd]
    have hdm := Nat.div_add_mod s CS
    have hc : s / CS * CS = CS * (s / CS) := Nat.mul_comm _ _
    omega
  · rw [ceilDiv_of_mod_ne_zero CS s h hd]
    have hdm := Nat.div_add_mod s CS
    have hmul : (s / CS + 1) * CS = CS * (s / CS) + CS := by ring
    have hmod : s % CS < CS := Nat.mod_lt s h
    omega

theorem mod_lt_of_div_eq (CS s i : Nat) (hi : i < s) (hd : i / CS = s / CS) :
    i % CS < s % CS := by
  have h1 := Nat.div_add_mod i CS
  have h2 := Nat.div_add_mod s CS
  rw [hd] at h1
  omega

/-! ## Pool allocator step lemmas -/

/-- Explicit form of one allocate step in the overflow case: a fresh
buffer is appended and the carve starts at offset 0 of that buffer. -/
theorem AllocTrace.step_overflow {T : Type} [Inhabited T] (t : AllocTrace T)
    (n : Nat) (hov : t.state.capacity < t.state.offset + n) :
    t.step n =
      { carves := t.carves ++ [(t.state.buffers.length, 0, n)],
        state := { buffers := t.state.buffers ++ [fun _ => default],
                   capacity := t.state.capacity,
                   offset := n } } := by
  unfold AllocTrace.step PoolState.allocate
  rw [if_pos hov]
  simp

/-- Explicit form of one allocate step when the current buffer has room:
the carve starts at the current offset of the last buffer. -/
theorem AllocTrace.step_fits {T : Type} [Inhabited T] (t : AllocTrace T)
    (n : Nat) (hov : ¬ t.state.capacity < t.state.offset + n) :
    t.step n =
      { carves := t.carves ++ [(t.state.buffers.length - 1, t.state.offset, n)],
        state := { buffers := t.state.buffers,
                   capacity := t.state.capacity,
                   offset := t.state.offset + n } } := by
  unfold AllocTrace.step PoolState.allocate
  rw [if_neg hov]

theorem traceInv_init (T : Type) [Inhabited T] (cap : Nat) :
    TraceInv cap (AllocTrace.init T cap) where
  cap_eq := rfl
  bpos := Nat.zero_lt_one
  off_le := Nat.zero_le cap
  inb := by intro c hc; simp [AllocTrace.init] at hc
  frontier := by intro c hc; simp [AllocTrace.init] at hc
  ordered := List.Pairwise.nil
  sum_le := Nat.zero_le _

theorem traceInv_step {T : Type} [Inhabited T] {cap : Nat} {t : AllocTrace T}
    (inv : TraceInv cap t) (n : Nat) (hn : n ≤ cap) :
    TraceInv cap (t.step n) := by
  have hb := inv.bpos
  have hoff := inv.off_le
  by_cases hov : t.state.capacity < t.state.offset + n
  · rw [AllocTrace.step_overflow t n hov]
    refine ⟨inv.cap_eq, by simp, hn, ?_, ?_, ?_, ?_⟩
    · intro c hc
      simp only [List.mem_append, List.mem_singleton] at hc
      simp only [List.length_append, List.length_singleton]
      rcases hc with hc | hc
      · have := inv.inb c hc
        omega
      · subst hc
        omega
    · intro c hc hlast
      simp only [List.mem_append, List.mem_singleton] at hc
      simp only [List.length_append, List.length_singleton] at hlast
      rcases hc with hc | hc
      · have := inv.inb c hc
        omega
      · subst hc
        simp
    · rw [List.pairwise_append]
      refine ⟨inv.ordered, List.pairwise_singleton _ _, ?_⟩
      intro c hc d hd
      rw [List.mem_singleton] at hd
      subst hd
      exact Or.inl (inv.inb c hc)
    · have hsum := inv.sum_le
      simp only [List.map_append, List.map_cons, List.map_nil, List.sum_append,
        List.sum_cons, List.sum_nil, List.length_append, List.length_singleton]
      have hmul : cap * (t.state.buffers.length - 1) + cap =
          cap * (t.state.buffers.length + 1 - 1) := by
        have h1 : t.state.buffers.length + 1 - 1 =
            (t.state.buffers.length - 1) + 1 := by omega
        rw [h1, Nat.mul_succ]
      omega
  · rw [AllocTrace.step_fits t n hov]
    refine ⟨inv.cap_eq, hb, ?_, ?_, ?_, ?_, ?_⟩
    · have := inv.cap_eq
      dsimp only
      omega
    · intro c hc
      simp only [List.mem_append, List.mem_singleton] at hc
      rcases hc with hc | hc
      · exact inv.inb c hc
      · subst hc
        exact Nat.sub_lt hb Nat.zero_lt_one
    · intro c hc hlast
      simp only [List.mem_append, List.mem_singleton] at hc
      dsimp only at hlast ⊢
      rcases hc with hc | hc
      · have := inv.frontier c hc hlast
        omega
      · subst hc
        dsimp only at hlast ⊢
        omega
    · rw [List.pairwise_append]
      refine ⟨inv.ordered, List.pairwise_singleton _ _, ?_⟩
      intro c hc d hd
      rw [List.mem_singleton] at hd
      subst hd
      have hcb := inv.inb c hc
      by_cases hlast : c.1 + 1 = t.state.buffers.length
      · have := inv.frontier c hc hlast
        exact Or.inr ⟨by omega, this⟩
      · exact Or.inl (by omega)
    · have hsum := inv.sum_le
      simp only [List.map_append, List.map_cons, List.map_nil, List.sum_append,
        List.sum_cons, List.sum_nil]
      omega

theorem traceInv_foldl {T : Type} [Inhabited T] {cap : Nat} :
    ∀ (ns : List Nat) (t : AllocTrace T), TraceInv cap t →
      (∀ n ∈ ns, n ≤ cap) → TraceInv cap (ns.foldl AllocTrace.step t)
  | [], _, inv, _ => inv
  | n :: ns, t, inv, h => by
      have hn : n ≤ cap := h n (List.mem_cons_self n ns)
      have hns : ∀ m ∈ ns, m ≤ cap := fun m hm => h m (List.mem_cons_of_mem n hm)
      exact traceInv_foldl ns (t.step n) (traceInv_step inv n hn) hns

theorem allocRun_inv (T : Type) [Inhabited T] (cap : Nat) (ns : List Nat)
    (h : ∀ n ∈ ns, n ≤ cap) : TraceInv cap (allocRun T cap ns) :=
  traceInv_foldl ns (AllocTrace.init T cap) (traceInv_init T cap) h

/-- The lengths recorded in the carve trace are exactly the request sizes. -/
theorem allocRun_carve_lengths (T : Type) [Inhabited T] (cap : Nat) (ns : List Nat) :
    ((allocRun T cap ns).carves.map (fun c => c.2.2)) = ns := by
  have main : ∀ (ms : List Nat) (t : AllocTrace T),
      ((ms.foldl AllocTrace.step t).carves.map (fun c => c.2.2)) =
        t.carves.map (fun c => c.2.2) ++ ms := by
    intro ms
    induction ms with
    | nil => intro t; simp
    | cons m ms ih =>
        intro t
        rw [List.foldl_cons, ih]
        simp [AllocTrace.step]
  simpa [allocRun, AllocTrace.init] using main ns (AllocTrace.init T cap)

/-! ## Theorems settling the pool allocator claims -/

/-- Claim C2 counterexample: with capacity 8 and requests 5, 5, 5 (each at
most the capacity, summing to 15) the allocator ends up owning 3 buffers,
while ceil(15 / 8) = 2, so the claimed exact buffer count is false. -/
theorem allocate_buffer_count_cex :
    (∀ n ∈ [5, 5, 5], n ≤ 8) ∧
    ¬ ((allocRun Nat 8 [5, 5, 5]).state.buffers.length =
        (([5, 5, 5] : List Nat).sum + 8 - 1) / 8) := by
  decide

/-- Claim C2 (amended): for a pool allocator of capacity C, after any
sequence of allocate calls whose request sizes are each at most C and sum
to S, the total number of owned buffers is at least ceil(S / C) and at
least 1 (one buffer is pre-allocated at construction); exact equality can
fail because of fragmentation at buffer boundaries.  Moreover any two
carves issued within the same buffer are disjoint sub-ranges. -/
theorem allocate_buffer_bound_and_carves_disjoint (cap : Nat) (ns : List Nat)
    (hcap : 0 < cap) (hns : ∀ n ∈ ns, n ≤ cap) :
    (ns.sum + cap - 1) / cap ≤ (allocRun Nat cap ns).state.buffers.length ∧
    1 ≤ (allocRun Nat cap ns).state.buffers.length ∧
    (allocRun Nat cap ns).carves.Pairwise carvesDisjoint := by
  have inv := allocRun_inv Nat cap ns hns
  have hb := inv.bpos
  refine ⟨?_, hb, ?_⟩
  · have hsum := inv.sum_le
    have hoff := inv.off_le
    have hlen : ((allocRun Nat cap ns).carves.map (fun c => c.2.2)) = ns :=
      allocRun_carve_lengths Nat cap ns
    set L := (allocRun Nat cap ns).state.buffers.length with hL
    have hmul : cap * (L - 1) + cap = cap * L := by
      obtain ⟨m, hm⟩ : ∃ m, L = m + 1 := ⟨L - 1, by omega⟩
      rw [hm]
      simp [Nat.mul_succ]
    rw [hlen] at hsum
    have hle : ns.sum ≤ cap * L := by omega
    have hlt : ns.sum + cap - 1 < (L + 1) * cap := by
      have hmul2 : (L + 1) * cap = cap * L + cap := by ring
      omega
    have := (Nat.div_lt_iff_lt_mul hcap).mpr hlt
    omega
  · refine inv.ordered.imp ?_
    intro c d h
    rcases h with h | h
    · exact Or.inl (Nat.ne_of_lt h)
    · exact Or.inr (Or.inl h.2)

/-- Claim C2 witness, the scenario of the specification: capacity 8 and
requests 3, 3, 3 give 2 buffers, meeting the bound ceil(9 / 8) = 2, and
pairwise-disjoint carves. -/
theorem allocate_buffer_bound_and_carves_disjoint_w :
    (0 < 8 ∧ ∀ n ∈ [3, 3, 3], n ≤ 8) ∧
    ((([3, 3, 3] : List Nat).sum + 8 - 1) / 8 ≤
       (allocRun Nat 8 [3, 3, 3]).state.buffers.length ∧
     1 ≤ (allocRun Nat 8 [3, 3, 3]).state.buffers.length ∧
     (allocRun Nat 8 [3, 3, 3]).carves.Pairwise carvesDisjoint) :=
  ⟨⟨by decide, by decide⟩,
   allocate_buffer_bound_and_carves_disjoint 8 [3, 3, 3] (by decide) (by decide)⟩

/-- Claim C3 counterexample: with capacity 2 a single allocate(3) call
(a request larger than the capacity) leaves offset = 3 > 2 = capacity,
violating the claimed invariant for arbitrary request sizes. -/
theorem allocate_offset_invariant_cex :
    ¬ ((allocRun Nat 2 [3]).state.offset ≤ (allocRun Nat 2 [3]).state.capacity) := by
  decide

/-- Claim C3 (amended): the invariant 0 ≤ offset ≤ capacity holds after
construction and after every allocate call, provided every request size is
at most the capacity; a single request larger than the capacity breaks it. -/
theorem allocate_offset_invariant (cap : Nat) (ns : List Nat)
    (hns : ∀ n ∈ ns, n ≤ cap) :
    (allocRun Nat cap ns).state.offset ≤ (allocRun Nat cap ns).state.capacity := by
  have inv := allocRun_inv Nat cap ns hns
  rw [inv.cap_eq]
  exact inv.off_le

/-- Claim C3 witness: capacity 8, requests 3, 3, 3 end with offset 3 ≤ 8. -/
theorem allocate_offset_invariant_w :
    (∀ n ∈ [3, 3, 3], n ≤ 8) ∧
    (allocRun Nat 8 [3, 3, 3]).state.offset ≤
      (allocRun Nat 8 [3, 3, 3]).state.capacity :=
  ⟨by decide, allocate_offset_invariant 8 [3, 3, 3] (by decide)⟩

/-- Claim C6 counterexample: from a fresh allocator of capacity 2, the
call allocate(3) triggers a brand-new buffer, yet the returned carve of
3 cells starting at offset 0 does not lie within the 2-cell buffer. -/
theorem allocate_new_buffer_frame_cex :
    (PoolState.init Nat 2).capacity < (PoolState.init Nat 2).offset + 3 ∧
    ¬ (((PoolState.init Nat 2).allocate 3).1.2 + 3 ≤
        (PoolState.init Nat 2).capacity) := by
  decide

/-- Claim C6 (amended): whenever allocate(n) triggers a brand-new buffer,
every older buffer is retained with its contents untouched (so previously
issued carves stay valid), the capacity is unchanged, and the returned
carve starts at offset 0 of the single newest buffer — it never spans two
buffers; it lies entirely within that buffer when n is at most the
capacity (for n greater than the capacity it overruns the buffer, the
latent defect the specification flags). -/
theorem allocate_new_buffer_frame (T : Type) [Inhabited T]
    (s : PoolState T) (n : Nat) (hov : s.capacity < s.offset + n) :
    (s.allocate n).2.buffers.length = s.buffers.length + 1 ∧
    (∀ b, b < s.buffers.length →
      (s.allocate n).2.buffers.getD b (fun _ => default) =
        s.buffers.getD b (fun _ => default)) ∧
    (s.allocate n).2.capacity = s.capacity ∧
    (s.allocate n).1.1 + 1 = (s.allocate n).2.buffers.length ∧
    (s.allocate n).1.2 = 0 ∧
    (n ≤ s.capacity → (s.allocate n).1.2 + n ≤ s.capacity) := by
  unfold PoolState.allocate
  rw [if_pos hov]
  refine ⟨by simp, ?_, rfl, ?_, rfl, ?_⟩
  · intro b hb
    exact getD_append_lt s.buffers _ b _ hb
  · dsimp only
    simp
  · intro hn
    dsimp only
    omega

/-- Claim C6 witness: allocator of capacity 2 holding one element at
offset 1; allocate(2) triggers a new buffer and all frame facts hold. -/
theorem allocate_new_buffer_frame_w :
    ((allocRun Nat 2 [1]).state.capacity <
       (allocRun Nat 2 [1]).state.offset + 2) ∧
    (((allocRun Nat 2 [1]).state.allocate 2).2.buffers.length =
       (allocRun Nat 2 [1]).state.buffers.length + 1 ∧
     (∀ b, b < (allocRun Nat 2 [1]).state.buffers.length →
       ((allocRun Nat 2 [1]).state.allocate 2).2.buffers.getD b (fun _ => default) =
         (allocRun Nat 2 [1]).state.buffers.getD b (fun _ => default)) ∧
     ((allocRun Nat 2 [1]).state.allocate 2).2.capacity =
       (allocRun Nat 2 [1]).state.capacity ∧
     ((allocRun Nat 2 [1]).state.allocate 2).1.1 + 1 =
       ((allocRun Nat 2 [1]).state.allocate 2).2.buffers.length ∧
     ((allocRun Nat 2 [1]).state.allocate 2).1.2 = 0 ∧
     (2 ≤ (allocRun Nat 2 [1]).state.capacity →
       ((allocRun Nat 2 [1]).state.allocate 2).1.2 + 2 ≤
         (allocRun Nat 2 [1]).state.capacity)) :=
  ⟨by decide,
   allocate_new_buffer_frame Nat (allocRun Nat 2 [1]).state 2 (by decide)⟩

/-- Claim C10: on any reachable allocator state (offset at most capacity)
allocate(0) changes nothing — same buffers, same offset — and returns the
carve position at the current offset of the newest buffer. -/
theorem allocate_zero_noop (T : Type) [Inhabited T]
    (s : PoolState T) (h : s.offset ≤ s.capacity) :
    s.allocate 0 = ((s.buffers.length - 1, s.offset), s) := by
  unfold PoolState.allocate
  rw [if_neg (by omega), Nat.add_zero]

/-! ## Chunked vector (plain variant) lemmas -/

/-- Explicit form of push_back when size is a multiple of CHUNK_SIZE:
a fresh chunk is appended before the slot write. -/
theorem ChunkedVector.push_back_mod_eq {T : Type} [Inhabited T] (CS : Nat)
    (v : ChunkedVector T) (x : T) (hd : v.size % CS = 0) :
    v.push_back CS x =
      { chunks := writeCell (v.chunks ++ [fun _ => default]) (v.size / CS)
          (v.size % CS) x,
        size := v.size + 1 } := by
  unfold ChunkedVector.push_back
  rw [if_pos hd]

/-- Explicit form of push_back when size is not a multiple of CHUNK_SIZE:
the slot write goes into the existing last chunk. -/
theorem ChunkedVector.push_back_mod_ne {T : Type} [Inhabited T] (CS : Nat)
    (v : ChunkedVector T) (x : T) (hd : ¬ v.size % CS = 0) :
    v.push_back CS x =
      { chunks := writeCell v.chunks (v.size / CS) (v.size % CS) x,
        size := v.size + 1 } := by
  unfold ChunkedVector.push_back
  rw [if_neg hd]

/-- Writing element number s into slot s % CS of chunk s / CS preserves
all reads below s and makes position s read back the written value. -/
theorem write_slot_reads {T : Type} [Inhabited T] {CS : Nat} (hCS : 0 < CS)
    (ys : List T) (x : T) (chunksA : List (Nat → T))
    (hlenA : chunksA.length = ys.length / CS + 1)
    (hread : ∀ i, i < ys.length →
      chunksA.getD (i / CS) (fun _ => default) (i % CS) = ys.getD i default) :
    (writeCell chunksA (ys.length / CS) (ys.length % CS) x).length =
      (ys.length + 1 + CS - 1) / CS ∧
    ∀ i, i < ys.length + 1 →
      (writeCell chunksA (ys.length / CS) (ys.length % CS) x).getD (i / CS)
          (fun _ => default) (i % CS) =
        (ys ++ [x]).getD i default := by
  constructor
  · rw [writeCell_length, hlenA, ceilDiv_succ _ _ hCS]
  · intro i hi
    rcases Nat.lt_succ_iff_lt_or_eq.mp hi with hlt | heq
    · rw [getD_append_lt ys [x] i default hlt]
      by_cases hdiv : i / CS = ys.length / CS
      · have hmod := mod_lt_of_div_eq CS ys.length i hlt hdiv
        rw [writeCell_read_ne _ _ _ _ _ _ (Or.inr (by omega))]
        exact hread i hlt
      · rw [writeCell_read_ne _ _ _ _ _ _ (Or.inl hdiv)]
        exact hread i hlt
    · subst heq
      rw [writeCell_read_self _ _ _ _ (by omega)]
      exact (getD_append_len ys x default).symm

theorem plainRepr_empty (T : Type) [Inhabited T] (CS : Nat) (h : 0 < CS) :
    PlainRepr CS (ChunkedVector.empty T) [] := by
  refine ⟨rfl, ?_, ?_⟩
  · show (0 : Nat) = (0 + CS - 1) / CS
    rw [Nat.div_eq_of_lt (by omega)]
  · intro i hi
    exact absurd hi (by simp)

theorem plainRepr_push {T : Type} [Inhabited T] {CS : Nat} (hCS : 0 < CS)
    {v : ChunkedVector T} {ys : List T} (hr : PlainRepr CS v ys) (x : T) :
    PlainRepr CS (v.push_back CS x) (ys ++ [x]) := by
  obtain ⟨hsz, hlen, hget⟩ := hr
  have hread : ∀ i, i < ys.length →
      v.chunks.getD (i / CS) (fun _ => default) (i % CS) = ys.getD i default :=
    fun i hi => hget i hi
  by_cases hd : v.size % CS = 0
  · have hd2 : ys.length % CS = 0 := by rw [← hsz]; exact hd
    rw [ChunkedVector.push_back_mod_eq CS v x hd, hsz]
    have hlenA : (v.chunks ++ [(fun _ => default : Nat → T)]).length =
        ys.length / CS + 1 := by
      rw [List.length_append, List.length_singleton, hlen,
        ceilDiv_of_mod_eq_zero CS ys.length hCS hd2]
    have hreadA : ∀ i, i < ys.length →
        (v.chunks ++ [(fun _ => default : Nat → T)]).getD (i / CS)
          (fun _ => default) (i % CS) = ys.getD i default := by
      intro i hi
      rw [getD_append_lt _ _ _ _ (by rw [hlen]; exact div_lt_ceilDiv CS ys.length i hCS hi)]
      exact hread i hi
    have hw := write_slot_reads hCS ys x _ hlenA hreadA
    exact ⟨by simp, by rw [List.length_append, List.length_singleton]; exact hw.1,
      fun i hi => hw.2 i (by simpa using hi)⟩
  · have hd2 : ¬ ys.length % CS = 0 := by rw [← hsz]; exact hd
    rw [ChunkedVector.push_back_mod_ne CS v x hd, hsz]
    have hlenA : v.chunks.length = ys.length / CS + 1 := by
      rw [hlen, ceilDiv_of_mod_ne_zero CS ys.length hCS hd2]
    have hw := write_slot_reads hCS ys x _ hlenA hread
    exact ⟨by simp, by rw [List.length_append, List.length_singleton]; exact hw.1,
      fun i hi => hw.2 i (by simpa using hi)⟩

theorem plainRepr_fromList (T : Type) [Inhabited T] (CS : Nat) (hCS : 0 < CS)
    (xs : List T) : PlainRepr CS (ChunkedVector.fromList CS xs) xs := by
  have main : ∀ (ms : List T) (v : ChunkedVector T) (ys : List T),
      PlainRepr CS v ys →
      PlainRepr CS (ms.foldl (ChunkedVector.push_back CS) v) (ys ++ ms) := by
    intro ms
    induction ms with
    | nil => intro v ys hr; simpa using hr
    | cons m ms ih =>
        intro v ys hr
        have h2 := ih (v.push_back CS m) (ys ++ [m]) (plainRepr_push hCS hr m)
        simpa using h2
  simpa using main xs (ChunkedVector.empty T) [] (plainRepr_empty T CS hCS)

/-- Claim C5: after N appends to the plain chunked sequence the number of
chunks created equals ceil(N / CHUNK_SIZE), here (N + CS - 1) / CS, and
in particular an empty sequence holds 0 chunks. -/
theorem chunk_count_eq_ceil (T : Type) [Inhabited T] (CS : Nat)
    (xs : List T) (hCS : 0 < CS) :
    (ChunkedVector.fromList CS xs).chunks.length = (xs.length + CS - 1) / CS ∧
    (ChunkedVector.fromList CS ([] : List T)).chunks.length = 0 :=
  ⟨(plainRepr_fromList T CS hCS xs).2.1, rfl⟩

/-- Claim C5 witness, the scenario of the specification: CHUNK_SIZE 4 and
10 appends create ceil(10 / 4) = 3 chunks. -/
theorem chunk_count_eq_ceil_w :
    0 < 4 ∧
    ((ChunkedVector.fromList 4 [0, 1, 2, 3, 4, 5, 6, 7, 8, 9]).chunks.length =
       (([0, 1, 2, 3, 4, 5, 6, 7, 8, 9] : List Nat).length + 4 - 1) / 4 ∧
     (ChunkedVector.fromList 4 ([] : List Nat)).chunks.length = 0) :=
  ⟨by decide, chunk_count_eq_ceil Nat 4 [0, 1, 2, 3, 4, 5, 6, 7, 8, 9] (by decide)⟩

/-! ## Chunked vector (pool-backed variant) lemmas -/

/-- Explicit form of the pooled push_back when no new chunk is needed. -/
theorem ChunkedVectorPoolAllocation.push_back_no_chunk {T : Type} [Inhabited T]
    (CS : Nat) (v : ChunkedVectorPoolAllocation T) (x : T)
    (hd : ¬ v.size % CS = 0) :
    v.push_back CS x =
      { chunks := v.chunks, size := v.size + 1,
        allocator := { buffers := writeCell v.allocator.buffers
                         (v.chunks.getD (v.size / CS) (0, 0)).1
                         ((v.chunks.getD (v.size / CS) (0, 0)).2 + v.size % CS)
                         x,
                       capacity := v.allocator.capacity,
                       offset := v.allocator.offset } } := by
  unfold ChunkedVectorPoolAllocation.push_back
  rw [if_neg hd]

/-- Explicit form of the pooled push_back when a new chunk is carved and
the allocator overflows into a brand-new buffer. -/
theorem ChunkedVectorPoolAllocation.push_back_overflow {T : Type} [Inhabited T]
    (CS : Nat) (v : ChunkedVectorPoolAllocation T) (x : T)
    (hd : v.size % CS = 0)
    (hov : v.allocator.capacity < v.allocator.offset + CS) :
    v.push_back CS x =
      { chunks := v.chunks ++ [(v.allocator.buffers.length, 0)],
        size := v.size + 1,
        allocator := { buffers :=
                         writeCell (v.allocator.buffers ++ [fun _ => default])
                           ((v.chunks ++
                             [(v.allocator.buffers.length, 0)]).getD
                               (v.size / CS) (0, 0)).1
                           (((v.chunks ++
                             [(v.allocator.buffers.length, 0)]).getD
                               (v.size / CS) (0, 0)).2 + v.size % CS)
                           x,
                       capacity := v.allocator.capacity,
                       offset := CS } } := by
  unfold ChunkedVectorPoolAllocation.push_back PoolState.allocate
  rw [if_pos hd, if_pos hov]
  simp

/-- Explicit form of the pooled push_back when a new chunk is carved from
the room remaining in the current buffer. -/
theorem ChunkedVectorPoolAllocation.push_back_fits {T : Type} [Inhabited T]
    (CS : Nat) (v : ChunkedVectorPoolAllocation T) (x : T)
    (hd : v.size % CS = 0)
    (hov : ¬ v.allocator.capacity < v.allocator.offset + CS) :
    v.push_back CS x =
      { chunks := v.chunks ++
          [(v.allocator.buffers.length - 1, v.allocator.offset)],
        size := v.size + 1,
        allocator := { buffers :=
                         writeCell v.allocator.buffers
                           ((v.chunks ++
                             [(v.allocator.buffers.length - 1,
                               v.allocator.offset)]).getD
                               (v.size / CS) (0, 0)).1
                           (((v.chunks ++
                             [(v.allocator.buffers.length - 1,
                               v.allocator.offset)]).getD
                               (v.size / CS) (0, 0)).2 + v.size % CS)
                           x,
                       capacity := v.allocator.capacity,
                       offset := v.allocator.offset + CS } } := by
  unfold ChunkedVectorPoolAllocation.push_back PoolState.allocate
  rw [if_pos hd, if_neg hov]

/-- Element writes through disjoint carve pointers do not interfere:
writing element number s (s = length of the stored list) through the
carve of chunk s / CS preserves every read below s and makes position s
read back the written value. -/
theorem pool_write_stage {T : Type} [Inhabited T] {CS : Nat} (hCS : 0 < CS)
    (ys : List T) (x : T) (chunksA : List (Nat × Nat))
    (bufsA : List (Nat → T))
    (hlenA : chunksA.length = ys.length / CS + 1)
    (hinbA : ∀ j, j < chunksA.length →
      (chunksA.getD j (0, 0)).1 < bufsA.length ∧
      (chunksA.getD j (0, 0)).2 + CS ≤ 2048)
    (hordA : ∀ j k, j < k → k < chunksA.length →
      (chunksA.getD j (0, 0)).1 < (chunksA.getD k (0, 0)).1 ∨
      ((chunksA.getD j (0, 0)).1 = (chunksA.getD k (0, 0)).1 ∧
       (chunksA.getD j (0, 0)).2 + CS ≤ (chunksA.getD k (0, 0)).2))
    (hreadA : ∀ i, i < ys.length →
      (bufsA.getD (chunksA.getD (i / CS) (0, 0)).1 (fun _ => default))
        ((chunksA.getD (i / CS) (0, 0)).2 + i % CS) = ys.getD i default) :
    ∀ i, i < ys.length + 1 →
      ((writeCell bufsA (chunksA.getD (ys.length / CS) (0, 0)).1
          ((chunksA.getD (ys.length / CS) (0, 0)).2 + ys.length % CS) x).getD
        (chunksA.getD (i / CS) (0, 0)).1 (fun _ => default))
        ((chunksA.getD (i / CS) (0, 0)).2 + i % CS) =
      (ys ++ [x]).getD i default := by
  intro i hi
  rcases Nat.lt_succ_iff_lt_or_eq.mp hi with hlt | heq
  · rw [getD_append_lt ys [x] i default hlt]
    by_cases hdiv : i / CS = ys.length / CS
    · rw [hdiv]
      have hmod := mod_lt_of_div_eq CS ys.length i hlt hdiv
      rw [writeCell_read_ne _ _ _ _ _ _ (Or.inr (by omega))]
      have hr := hreadA i hlt
      rw [hdiv] at hr
      exact hr
    · have hjle : i / CS ≤ ys.length / CS := Nat.div_le_div_right (Nat.le_of_lt hlt)
      have hjlt : i / CS < ys.length / CS := by omega
      have hmodlt : i % CS < CS := Nat.mod_lt i hCS
      rcases hordA (i / CS) (ys.length / CS) hjlt (by omega) with ho | ho
      · rw [writeCell_read_ne _ _ _ _ _ _ (Or.inl (Nat.ne_of_lt ho))]
        exact hreadA i hlt
      · rw [writeCell_read_ne _ _ _ _ _ _ (Or.inr (by omega))]
        exact hreadA i hlt
  · subst heq
    rw [writeCell_read_self _ _ _ _ (hinbA (ys.length / CS) (by omega)).1]
    exact (getD_append_len ys x default).symm

/-- Assembles the pooled abstraction relation for the state reached after
the chunk-allocation stage and the element write of one push_back. -/
theorem poolRepr_assemble {T : Type} [Inhabited T] {CS : Nat} (hCS : 0 < CS)
    (ys : List T) (x : T) (chunksA : List (Nat × Nat))
    (bufsA : List (Nat → T)) (offA : Nat)
    (hb : 0 < bufsA.length)
    (hoffA : offA ≤ 2048)
    (hlenA : chunksA.length = ys.length / CS + 1)
    (hinbA : ∀ j, j < chunksA.length →
      (chunksA.getD j (0, 0)).1 < bufsA.length ∧
      (chunksA.getD j (0, 0)).2 + CS ≤ 2048)
    (hfrA : ∀ j, j < chunksA.length →
      (chunksA.getD j (0, 0)).1 + 1 = bufsA.length →
      (chunksA.getD j (0, 0)).2 + CS ≤ offA)
    (hordA : ∀ j k, j < k → k < chunksA.length →
      (chunksA.getD j (0, 0)).1 < (chunksA.getD k (0, 0)).1 ∨
      ((chunksA.getD j (0, 0)).1 = (chunksA.getD k (0, 0)).1 ∧
       (chunksA.getD j (0, 0)).2 + CS ≤ (chunksA.getD k (0, 0)).2))
    (hreadA : ∀ i, i < ys.length →
      (bufsA.getD (chunksA.getD (i / CS) (0, 0)).1 (fun _ => default))
        ((chunksA.getD (i / CS) (0, 0)).2 + i % CS) = ys.getD i default) :
    PoolRepr CS
      { chunks := chunksA, size := ys.length + 1,
        allocator := { buffers :=
                         writeCell bufsA
                           (chunksA.getD (ys.length / CS) (0, 0)).1
                           ((chunksA.getD (ys.length / CS) (0, 0)).2 +
                             ys.length % CS)
                           x,
                       capacity := 2048,
                       offset := offA } }
      (ys ++ [x]) := by
  refine ⟨by simp, rfl, ?_, hoffA, ?_, ?_, ?_, ?_, ?_⟩
  · dsimp only
    rw [writeCell_length]
    exact hb
  · dsimp only
    rw [List.length_append, List.length_singleton, ceilDiv_succ _ _ hCS, hlenA]
  · dsimp only
    intro j hj
    rw [writeCell_length]
    exact hinbA j hj
  · dsimp only
    intro j hj hj2
    rw [writeCell_length] at hj2
    exact hfrA j hj hj2
  · dsimp only
    exact hordA
  · intro i hi
    exact pool_write_stage hCS ys x chunksA bufsA hlenA hinbA hordA hreadA i
      (by simpa using hi)

theorem poolRepr_empty (T : Type) [Inhabited T] (CS : Nat) (hCS : 0 < CS) :
    PoolRepr CS (ChunkedVectorPoolAllocation.empty T) [] := by
  refine ⟨rfl, rfl, by simp [ChunkedVectorPoolAllocation.empty, PoolState.init],
    by simp [ChunkedVectorPoolAllocation.empty, PoolState.init], ?_,
    ?_, ?_, ?_, ?_⟩
  · show (0 : Nat) = (0 + CS - 1) / CS
    rw [Nat.div_eq_of_lt (by omega)]
  · intro j hj
    exact absurd hj (by simp [ChunkedVectorPoolAllocation.empty])
  · intro j hj
    exact absurd hj (by simp [ChunkedVectorPoolAllocation.empty])
  · intro j k hjk hk
    exact absurd hk (by simp [ChunkedVectorPoolAllocation.empty])
  · intro i hi
    exact absurd hi (by simp)

theorem poolRepr_push {T : Type} [Inhabited T] {CS : Nat} (hCS : 0 < CS)
    (hCS2 : CS ≤ 2048) {v : ChunkedVectorPoolAllocation T} {ys : List T}
    (hr : PoolRepr CS v ys) (x : T) :
    PoolRepr CS (v.push_back CS x) (ys ++ [x]) := by
  obtain ⟨hsz, hcap, hbpos, hoff, hnch, hinb, hfr, hord, hget⟩ := hr
  have hidxlt : ∀ i, i < ys.length → i / CS < v.chunks.length := by
    intro i hi
    rw [hnch]
    exact div_lt_ceilDiv CS ys.length i hCS hi
  by_cases hd : v.size % CS = 0
  · have hd2 : ys.length % CS = 0 := by rw [← hsz]; exact hd
    have hlen0 : v.chunks.length = ys.length / CS := by
      rw [hnch, ceilDiv_of_mod_eq_zero CS ys.length hCS hd2]
    by_cases hov : v.allocator.capacity < v.allocator.offset + CS
    · rw [ChunkedVectorPoolAllocation.push_back_overflow CS v x hd hov, hsz,
        hcap]
      apply poolRepr_assemble hCS ys x _ _ _ (by simp) hCS2
      · rw [List.length_append, List.length_singleton, hlen0]
      · intro j hj
        rw [List.length_append, List.length_singleton, hlen0] at hj
        rcases Nat.lt_succ_iff_lt_or_eq.mp hj with hlt | heq
        · rw [← hlen0] at hlt
          rw [getD_append_lt _ _ _ _ hlt]
          have h1 := hinb j hlt
          constructor
          · rw [List.length_append, List.length_singleton]
            omega
          · exact h1.2
        · subst heq
          rw [← hlen0, getD_append_len]
          constructor
          · simp
          · dsimp only
            omega
      · intro j hj hj2
        rw [List.length_append, List.length_singleton, hlen0] at hj
        rw [List.length_append, List.length_singleton] at hj2
        rcases Nat.lt_succ_iff_lt_or_eq.mp hj with hlt | heq
        · rw [← hlen0] at hlt
          rw [getD_append_lt _ _ _ _ hlt] at hj2 ⊢
          have h1 := (hinb j hlt).1
          omega
        · subst heq
          rw [← hlen0, getD_append_len] at hj2 ⊢
          dsimp only
          omega
      · intro j k hjk hk
        rw [List.length_append, List.length_singleton, hlen0] at hk
        rcases Nat.lt_succ_iff_lt_or_eq.mp hk with hklt | hkeq
        · have hjlt : j < ys.length / CS := by omega
          rw [← hlen0] at hklt hjlt
          rw [getD_append_lt _ _ j _ hjlt, getD_append_lt _ _ k _ hklt]
          exact hord j k hjk hklt
        · subst hkeq
          have hjlt : j < ys.length / CS := hjk
          rw [← hlen0] at hjlt
          rw [getD_append_lt _ _ j _ hjlt, ← hlen0, getD_append_len]
          exact Or.inl (hinb j hjlt).1
      · intro i hi
        have hidx := hidxlt i hi
        rw [getD_append_lt _ _ _ _ hidx,
          getD_append_lt _ _ _ _ (hinb (i / CS) hidx).1]
        exact hget i hi
    · rw [ChunkedVectorPoolAllocation.push_back_fits CS v x hd hov, hsz, hcap]
      have hfits : v.allocator.offset + CS ≤ 2048 := by
        rw [hcap] at hov
        omega
      apply poolRepr_assemble hCS ys x _ _ _ hbpos hfits
      · rw [List.length_append, List.length_singleton, hlen0]
      · intro j hj
        rw [List.length_append, List.length_singleton, hlen0] at hj
        rcases Nat.lt_succ_iff_lt_or_eq.mp hj with hlt | heq
        · rw [← hlen0] at hlt
          rw [getD_append_lt _ _ _ _ hlt]
          exact ⟨(hinb j hlt).1, (hinb j hlt).2⟩
        · subst heq
          rw [← hlen0, getD_append_len]
          exact ⟨Nat.sub_lt hbpos Nat.zero_lt_one, hfits⟩
      · intro j hj hj2
        rw [List.length_append, List.length_singleton, hlen0] at hj
        rcases Nat.lt_succ_iff_lt_or_eq.mp hj with hlt | heq
        · rw [← hlen0] at hlt
          rw [getD_append_lt _ _ _ _ hlt] at hj2 ⊢
          have h1 := hfr j hlt hj2
          omega
        · subst heq
          rw [← hlen0, getD_append_len] at hj2 ⊢
      · intro j k hjk hk
        rw [List.length_append, List.length_singleton, hlen0] at hk
        rcases Nat.lt_succ_iff_lt_or_eq.mp hk with hklt | hkeq
        · have hjlt : j < ys.length / CS := by omega
          rw [← hlen0] at hklt hjlt
          rw [getD_append_lt _ _ j _ hjlt, getD_append_lt _ _ k _ hklt]
          exact hord j k hjk hklt
        · subst hkeq
          have hjlt : j < ys.length / CS := hjk
          rw [← hlen0] at hjlt
          rw [getD_append_lt _ _ j _ hjlt, ← hlen0, getD_append_len]
          have h1 := (hinb j hjlt).1
          by_cases hlast : (v.chunks.getD j (0, 0)).1 + 1 =
              v.allocator.buffers.length
          · have h2 := hfr j hjlt hlast
            exact Or.inr ⟨by omega, by dsimp only; omega⟩
          · exact Or.inl (by dsimp only; omega)
      · intro i hi
        have hidx := hidxlt i hi
        rw [getD_append_lt _ _ _ _ hidx]
        exact hget i hi
  · have hd2 : ¬ ys.length % CS = 0 := by rw [← hsz]; exact hd
    rw [ChunkedVectorPoolAllocation.push_back_no_chunk CS v x hd, hsz, hcap]
    apply poolRepr_assemble hCS ys x _ _ _ hbpos hoff
    · rw [hnch, ceilDiv_of_mod_ne_zero CS ys.length hCS hd2]
    · exact hinb
    · exact hfr
    · exact hord
    · exact hget

theorem poolRepr_fromList (T : Type) [Inhabited T] (CS : Nat) (hCS : 0 < CS)
    (hCS2 : CS ≤ 2048) (xs : List T) :
    PoolRepr CS (ChunkedVectorPoolAllocation.fromList CS xs) xs := by
  have main : ∀ (ms : List T) (v : ChunkedVectorPoolAllocation T)
      (ys : List T), PoolRepr CS v ys →
      PoolRepr CS
        (ms.foldl (ChunkedVectorPoolAllocation.push_back CS) v) (ys ++ ms) := by
    intro ms
    induction ms with
    | nil => intro v ys hr; simpa using hr
    | cons m ms ih =>
        intro v ys hr
        have h2 := ih (v.push_back CS m) (ys ++ [m])
          (poolRepr_push hCS hCS2 hr m)
        simpa using h2
  simpa using main xs (ChunkedVectorPoolAllocation.empty T) []
    (poolRepr_empty T CS hCS)

/-- Claim C10 witness: an allocator of capacity 5 holding 2 elements is
left untouched by allocate(0), which returns buffer 0, offset 2. -/
theorem allocate_zero_noop_w :
    (allocRun Nat 5 [2]).state.offset ≤ (allocRun Nat 5 [2]).state.capacity ∧
    (allocRun Nat 5 [2]).state.allocate 0 =
      (((allocRun Nat 5 [2]).state.buffers.length - 1,
        (allocRun Nat 5 [2]).state.offset),
       (allocRun Nat 5 [2]).state) :=
  ⟨by decide, allocate_zero_noop Nat (allocRun Nat 5 [2]).state (by decide)⟩

/-! ## Theorems settling the chunked-sequence claims -/

/-- Claim C1: for every sequence of N append calls to either chunked
sequence — the plain ChunkedVector or the pool-backed
ChunkedVectorPoolAllocation — with a positive CHUNK_SIZE (at most the
fixed pool capacity 2048 for the pooled variant, as with the default
CHUNK_SIZE of 64), get_size returns N afterwards and reading index i for
every i < N returns exactly the i-th appended value, in call order. -/
theorem chunked_append_read_correct (T : Type) [Inhabited T] (CS : Nat)
    (xs : List T) (hCS : 0 < CS) (hCS2 : CS ≤ 2048) :
    (ChunkedVector.fromList CS xs).get_size = xs.length ∧
    (∀ i, i < xs.length →
      (ChunkedVector.fromList CS xs).get CS i = xs.getD i default) ∧
    (ChunkedVectorPoolAllocation.fromList CS xs).get_size = xs.length ∧
    (∀ i, i < xs.length →
      (ChunkedVectorPoolAllocation.fromList CS xs).get CS i =
        xs.getD i default) := by
  have h1 := plainRepr_fromList T CS hCS xs
  have h2 := poolRepr_fromList T CS hCS hCS2 xs
  exact ⟨h1.1, h1.2.2, h2.1, h2.2.2.2.2.2.2.2.2⟩

/-- Claim C1 witness, the scenario of the specification: CHUNK_SIZE 4,
appending 0..9 gives size 10 and every index reads back its value, for
both variants. -/
theorem chunked_append_read_correct_w :
    ((0 : Nat) < 4 ∧ 4 ≤ 2048) ∧
    ((ChunkedVector.fromList 4 [0, 1, 2, 3, 4, 5, 6, 7, 8, 9]).get_size =
       ([0, 1, 2, 3, 4, 5, 6, 7, 8, 9] : List Nat).length ∧
     (∀ i, i < ([0, 1, 2, 3, 4, 5, 6, 7, 8, 9] : List Nat).length →
       (ChunkedVector.fromList 4 [0, 1, 2, 3, 4, 5, 6, 7, 8, 9]).get 4 i =
         ([0, 1, 2, 3, 4, 5, 6, 7, 8, 9] : List Nat).getD i default) ∧
     (ChunkedVectorPoolAllocation.fromList 4
        [0, 1, 2, 3, 4, 5, 6, 7, 8, 9]).get_size =
       ([0, 1, 2, 3, 4, 5, 6, 7, 8, 9] : List Nat).length ∧
     (∀ i, i < ([0, 1, 2, 3, 4, 5, 6, 7, 8, 9] : List Nat).length →
       (ChunkedVectorPoolAllocation.fromList 4
          [0, 1, 2, 3, 4, 5, 6, 7, 8, 9]).get 4 i =
         ([0, 1, 2, 3, 4, 5, 6, 7, 8, 9] : List Nat).getD i default)) :=
  ⟨⟨by decide, by decide⟩,
   chunked_append_read_correct Nat 4 [0, 1, 2, 3, 4, 5, 6, 7, 8, 9]
     (by decide) (by decide)⟩

/-- Claim C4: the pool-backed chunked sequence has an external contract
identical to the plain one — for every sequence of appended values, both
variants report the same get_size and the same element at every index
below it (for positive CHUNK_SIZE at most the pool capacity 2048). -/
theorem pooled_matches_plain (T : Type) [Inhabited T] (CS : Nat)
    (xs : List T) (hCS : 0 < CS) (hCS2 : CS ≤ 2048) :
    (ChunkedVectorPoolAllocation.fromList CS xs).get_size =
      (ChunkedVector.fromList CS xs).get_size ∧
    ∀ i, i < (ChunkedVector.fromList CS xs).get_size →
      (ChunkedVectorPoolAllocation.fromList CS xs).get CS i =
        (ChunkedVector.fromList CS xs).get CS i := by
  have h1 := plainRepr_fromList T CS hCS xs
  have h2 := poolRepr_fromList T CS hCS hCS2 xs
  constructor
  · exact h2.1.trans h1.1.symm
  · intro i hi
    have hi2 : i < xs.length := by rw [← h1.1]; exact hi
    rw [h2.2.2.2.2.2.2.2.2 i hi2, h1.2.2 i hi2]

/-- Claim C4 witness: CHUNK_SIZE 2, values 5..9 — both variants agree on
size and on every element. -/
theorem pooled_matches_plain_w :
    ((0 : Nat) < 2 ∧ 2 ≤ 2048) ∧
    ((ChunkedVectorPoolAllocation.fromList 2 [5, 6, 7, 8, 9]).get_size =
       (ChunkedVector.fromList 2 [5, 6, 7, 8, 9]).get_size ∧
     ∀ i, i < (ChunkedVector.fromList 2 ([5, 6, 7, 8, 9] : List Nat)).get_size →
       (ChunkedVectorPoolAllocation.fromList 2 [5, 6, 7, 8, 9]).get 2 i =
         (ChunkedVector.fromList 2 [5, 6, 7, 8, 9]).get 2 i) :=
  ⟨⟨by decide, by decide⟩,
   pooled_matches_plain Nat 2 [5, 6, 7, 8, 9] (by decide) (by decide)⟩

/-- Claim C8 counterexample: CHUNK_SIZE 3 is a legal instantiation of the
pool-backed chunked vector, but the embedded allocator capacity — fixed
at 2048 by the member initializer, independent of CHUNK_SIZE — is not a
whole multiple of 3. -/
theorem pooled_capacity_multiple_cex :
    ¬ (3 ∣ (ChunkedVectorPoolAllocation.empty Nat).allocator.capacity) := by
  decide

/-- Claim C8 (amended): the embedded pool allocator is constructed with
the fixed capacity 2048, independent of the CHUNK_SIZE instantiation;
this capacity is a whole multiple of the default CHUNK_SIZE 64 (the only
instantiation the program uses), but not of every possible CHUNK_SIZE. -/
theorem pooled_capacity_fixed :
    (ChunkedVectorPoolAllocation.empty Nat).allocator.capacity = 2048 ∧
    defaultChunkSize ∣
      (ChunkedVectorPoolAllocation.empty Nat).allocator.capacity := by
  decide

/-! ## Theorems about the benchmark scan loop (claim C7) -/

/-- Claim C7: the scan loop of benchmarkStdVector increments the wrong
counter (the outer repeat counter i instead of k), so its guard
k < v.size() remains true after every number of iterations whenever the
workload n is at least 1 — the loop never terminates, the driver never
returns, and the process cannot reach the return 0 in main. -/
theorem benchmark_scan_loop_never_exits (n : Nat) (hn : 1 ≤ n) (t : Nat) :
    (scanIter n t).k < n := by
  have hk : ∀ u, (scanIter n u).k = 0 := by
    intro u
    induction u with
    | zero => rfl
    | succ u ih =>
        show (scanStep n (scanIter n u)).k = 0
        unfold scanStep
        split
        · exact ih
        · exact ih
  rw [hk t]
  omega

/-- Claim C7 witness: with the smallest failing workload n = 1, the scan
guard is still true after 100 iterations. -/
theorem benchmark_scan_loop_never_exits_w :
    1 ≤ 1 ∧ (scanIter 1 100).k < 1 :=
  ⟨by decide, benchmark_scan_loop_never_exits 1 (by decide) 100⟩

/-! ## Theorems about the AoS and SoA layouts (claim C9) -/

theorem aosFill_getD {R : Type} [Inhabited R] (dist : Nat → R) :
    ∀ (n c i : Nat), i < n →
      (aosFill dist n c).getD i default =
        { x := dist (c + 4 * i), y := dist (c + 4 * i + 1),
          z := dist (c + 4 * i + 2), mass := dist (c + 4 * i + 3) }
  | 0, _, i, h => absurd h (Nat.not_lt_zero i)
  | _ + 1, c, 0, _ => by simp [aosFill]
  | n + 1, c, i + 1, h => by
      have ih := aosFill_getD dist n (c + 4) i (Nat.lt_of_succ_lt_succ h)
      have e1 : c + 4 + 4 * i = c + 4 * (i + 1) := by omega
      show (aosFill dist n (c + 4)).getD i default = _
      rw [ih, e1]

theorem soaFill_sel {R : Type} (dist : Nat → R) (o : Nat)
    (sel : ParticlesSoA R → (Nat → R))
    (hsel : ∀ (s : ParticlesSoA R) (i0 c : Nat),
      sel { x := updFun s.x i0 (dist c),
            y := updFun s.y i0 (dist (c + 1)),
            z := updFun s.z i0 (dist (c + 2)),
            mass := updFun s.mass i0 (dist (c + 3)) } =
        updFun (sel s) i0 (dist (c + o))) :
    ∀ (m i0 c : Nat) (s : ParticlesSoA R) (j : Nat),
      sel (soaFill dist m i0 c s) j =
        if i0 ≤ j ∧ j < i0 + m then dist (c + 4 * (j - i0) + o) else sel s j
  | 0, i0, _, s, j => by
      rw [if_neg (by omega)]
      rfl
  | m + 1, i0, c, s, j => by
      have hstep : soaFill dist (m + 1) i0 c s =
          soaFill dist m (i0 + 1) (c + 4)
            { x := updFun s.x i0 (dist c),
              y := updFun s.y i0 (dist (c + 1)),
              z := updFun s.z i0 (dist (c + 2)),
              mass := updFun s.mass i0 (dist (c + 3)) } := rfl
      rw [hstep, soaFill_sel dist o sel hsel m (i0 + 1) (c + 4) _ j, hsel]
      by_cases h1 : i0 + 1 ≤ j ∧ j < i0 + 1 + m
      · rw [if_pos h1, if_pos (by omega)]
        exact congrArg dist (by omega)
      · rw [if_neg h1]
        unfold updFun
        by_cases h2 : j = i0
        · subst h2
          rw [if_pos rfl, if_pos (by omega)]
          exact congrArg dist (by omega)
        · rw [if_neg h2, if_neg (by omega)]

/-- Claim C9 counterexample: struct ParticlesSoA declares its mass array
as std::vector<float>, a single-precision field, so the claimed record
shape of three single-precision fields and one double-precision field is
false for the separated representation. -/
theorem soa_mass_precision_cex :
    ¬ (particlesSoAPrecisions =
        [Precision.single, Precision.single, Precision.single,
         Precision.double]) := by
  decide

/-- Claim C9 (amended): fed from the identical draw stream (the fixed
pseudo-random seed), the interleaved (AoS) and separated (SoA) layouts
hold an identical value in each of the 4 fields at every index; the
interleaved record has three single-precision fields and one
double-precision field, while the separated layout stores all four
fields — mass included — in single precision. -/
theorem aos_soa_fields_identical {R : Type} [Inhabited R] (dist : Nat → R)
    (n i : Nat) (hi : i < n) :
    ((benchmarkAoS_particles dist n).getD i default).x =
      (benchmarkSoA_particles dist n).x i ∧
    ((benchmarkAoS_particles dist n).getD i default).y =
      (benchmarkSoA_particles dist n).y i ∧
    ((benchmarkAoS_particles dist n).getD i default).z =
      (benchmarkSoA_particles dist n).z i ∧
    ((benchmarkAoS_particles dist n).getD i default).mass =
      (benchmarkSoA_particles dist n).mass i ∧
    particleAosPrecisions =
      [Precision.single, Precision.single, Precision.single,
       Precision.double] ∧
    particlesSoAPrecisions =
      [Precision.single, Precision.single, Precision.single,
       Precision.single] := by
  have ha := aosFill_getD dist n 0 i hi
  have hx : (soaFill dist n 0 0 (ParticlesSoA.ctor R)).x i =
      if 0 ≤ i ∧ i < 0 + n then dist (0 + 4 * (i - 0) + 0)
      else (ParticlesSoA.ctor R).x i :=
    soaFill_sel dist 0 (fun s => s.x) (fun _ _ _ => rfl)
      n 0 0 (ParticlesSoA.ctor R) i
  have hy : (soaFill dist n 0 0 (ParticlesSoA.ctor R)).y i =
      if 0 ≤ i ∧ i < 0 + n then dist (0 + 4 * (i - 0) + 1)
      else (ParticlesSoA.ctor R).y i :=
    soaFill_sel dist 1 (fun s => s.y) (fun _ _ _ => rfl)
      n 0 0 (ParticlesSoA.ctor R) i
  have hz : (soaFill dist n 0 0 (ParticlesSoA.ctor R)).z i =
      if 0 ≤ i ∧ i < 0 + n then dist (0 + 4 * (i - 0) + 2)
      else (ParticlesSoA.ctor R).z i :=
    soaFill_sel dist 2 (fun s => s.z) (fun _ _ _ => rfl)
      n 0 0 (ParticlesSoA.ctor R) i
  have hm : (soaFill dist n 0 0 (ParticlesSoA.ctor R)).mass i =
      if 0 ≤ i ∧ i < 0 + n then dist (0 + 4 * (i - 0) + 3)
      else (ParticlesSoA.ctor R).mass i :=
    soaFill_sel dist 3 (fun s => s.mass) (fun _ _ _ => rfl)
      n 0 0 (ParticlesSoA.ctor R) i
  unfold benchmarkAoS_particles benchmarkSoA_particles
  rw [ha]
  refine ⟨?_, ?_, ?_, ?_, rfl, rfl⟩
  · rw [hx, if_pos (by omega)]
    exact congrArg dist (by omega)
  · rw [hy, if_pos (by omega)]
    exact congrArg dist (by omega)
  · rw [hz, if_pos (by omega)]
    exact congrArg dist (by omega)
  · rw [hm, if_pos (by omega)]
    exact congrArg dist (by omega)

/-- Claim C9 witness: draw stream k, 3 particles — all four fields agree
at index 2 and the two precision lists are as stated. -/
theorem aos_soa_fields_identical_w :
    (2 : Nat) < 3 ∧
    (((benchmarkAoS_particles (fun k => k) 3).getD 2 default).x =
       (benchmarkSoA_particles (fun k => k) 3).x 2 ∧
     ((benchmarkAoS_particles (fun k => k) 3).getD 2 default).y =
       (benchmarkSoA_particles (fun k => k) 3).y 2 ∧
     ((benchmarkAoS_particles (fun k => k) 3).getD 2 default).z =
       (benchmarkSoA_particles (fun k => k) 3).z 2 ∧
     ((benchmarkAoS_particles (fun k => k) 3).getD 2 default).mass =
       (benchmarkSoA_particles (fun k => k) 3).mass 2 ∧
     particleAosPrecisions =
       [Precision.single, Precision.single, Precision.single,
        Precision.double] ∧
     particlesSoAPrecisions =
       [Precision.single, Precision.single, Precision.single,
        Precision.single]) :=
  ⟨by decide, aos_soa_fields_identical (fun k => (k : Nat)) 3 2 (by decide)⟩

end CacheBench
